import Mathlib

/-!
# Verification of the equity-explorer quantitative core

Shallow embedding of the alignment (forward-fill) algorithm of
`fetchMultipleStockHistories` (services/stockService), the historical-simulation
VaR/ES calculator (`calculateVaRAndES`, components/RiskEngineDisplay), and the
statistics kernel of the volatility lab (`stdDev`, `correlation`, the EWMA
volatility loop, components/VolatilityLab).

Calendar dates are modelled as natural numbers (the source compares dates via
`new Date(s).getTime()`, a totally ordered timestamp).  Exact numeric code
(sorting, comparisons, copying) is modelled over `ℚ`; code that takes square
roots (`stdDev`, `correlation`, the EWMA loop) is modelled over `ℝ`.
-/

/-- Insertion of an element into a list sorted ascending; building block for
the model of JavaScript `Array.prototype.sort((a, b) => a - b)`. -/
def insertLe {α : Type} [LinearOrder α] (a : α) : List α → List α
  | [] => [a]
  | x :: xs => if a ≤ x then a :: x :: xs else x :: insertLe a xs

/-- Model of JavaScript ascending `sort` on a copied array. -/
def sortAsc {α : Type} [LinearOrder α] (l : List α) : List α :=
  l.foldr insertLe []

/-- One OHLCV bar, matching the `StockData` record of the source
(`Date`, `Open`, `High`, `Low`, `Close`, `Volume`). -/
structure StockData where
  Date : ℕ
  Open : ℚ
  High : ℚ
  Low : ℚ
  Close : ℚ
  Volume : ℚ
deriving DecidableEq, Repr

/-- Insertion step for sorting a price history by date, as the source does with
`sort((a, b) => new Date(a.Date).getTime() - new Date(b.Date).getTime())`. -/
def insertByDate (a : StockData) : List StockData → List StockData
  | [] => [a]
  | x :: xs => if a.Date ≤ x.Date then a :: x :: xs else x :: insertByDate a xs

/-- Sorting one ticker's fetched history chronologically (line 104 of the
service). -/
def sortByDate (l : List StockData) : List StockData :=
  l.foldr insertByDate []

/-- The `priceMap` lookup: `new Map(tickerHistory.map(d => [d.Date, d]))`
followed by `priceMap.get(date)`. -/
def findByDate (h : List StockData) (d : ℕ) : Option StockData :=
  h.find? (fun p => p.Date == d)

/-- The forward-fill walk over the sorted union of dates (lines 109–125 of the
service): a real observation is emitted as is and remembered as `lastKnownData`;
a missing date is filled from `lastKnownData` with `Volume := 0`; a leading gap
(no `lastKnownData` yet) is skipped. -/
def ffLoop (pm : ℕ → Option StockData) : List ℕ → Option StockData → List StockData
  | [], _ => []
  | d :: ds, last =>
    match pm d with
    | some currentData => currentData :: ffLoop pm ds (some currentData)
    | none =>
      match last with
      | some lastKnownData =>
          { lastKnownData with Date := d, Volume := 0 } :: ffLoop pm ds last
      | none => ffLoop pm ds last

/-- Forward-filled history of one ticker over the sorted date union. -/
def forwardFill (dates : List ℕ) (h : List StockData) : List StockData :=
  ffLoop (findByDate (sortByDate h)) dates none

/-- The sorted union of all dates appearing in any ticker's history
(lines 94–98 of the service). -/
def sortedDatesOf (input : List (String × List StockData)) : List ℕ :=
  sortAsc ((input.map (fun p => p.2.map StockData.Date)).flatten.dedup)

/-- Step 2 of the service applied to every ticker. -/
def forwardFilledOf (input : List (String × List StockData)) :
    List (String × List StockData) :=
  input.map (fun p => (p.1, forwardFill (sortedDatesOf input) p.2))

/-- One step of the `latestStartDate` scan (lines 131–139 of the service):
an empty series is skipped, otherwise the later of the accumulator and the
series' first date is kept (`none` models the initial `''`). -/
def latestStartStep (acc : Option ℕ) (p : String × List StockData) : Option ℕ :=
  match p.2.head? with
  | none => acc
  | some q =>
    match acc with
    | none => some q.Date
    | some m => if m < q.Date then some q.Date else some m

/-- The latest start date among all forward-filled series. -/
def latestStart (ff : List (String × List StockData)) : Option ℕ :=
  ff.foldl latestStartStep none

/-- Trimming a series to dates at or after the common start (line 144).  When
no start date exists (`latestStartDate` still `''`), every comparison
`new Date(d.Date) >= new Date('')` is false, so nothing is kept. -/
def trimFrom (ls : Option ℕ) (h : List StockData) : List StockData :=
  match ls with
  | none => h.filter (fun _ => false)
  | some m => h.filter (fun d => decide (m ≤ d.Date))

/-- Step 4 of the service applied to every ticker. -/
def alignedOf (input : List (String × List StockData)) :
    List (String × List StockData) :=
  (forwardFilledOf input).map
    (fun p => (p.1, trimFrom (latestStart (forwardFilledOf input)) p.2))

/-- The error message thrown by the final overlap check (line 149). -/
def insufficientDataMsg : String :=
  "Not enough overlapping historical data for the selected tickers to calculate returns, even after forward-filling."

/-- The alignment stage of `fetchMultipleStockHistories` (lines 85–153 of the
service), taking the already-resolved successful fetches in request order.
Mirrors: the early `return {}` when there are no tickers, the forward
fill/trim pipeline, and the final check that throws when the first ticker's
aligned series has fewer than 2 points. -/
def fetchMultipleStockHistories (input : List (String × List StockData)) :
    Except String (List (String × List StockData)) :=
  if input = [] then .ok []
  else
    match (alignedOf input).head? with
    | none => .error insufficientDataMsg
    | some first =>
      if first.2.length < 2 then .error insufficientDataMsg
      else .ok (alignedOf input)

/-- The dates common to every aligned series: the sorted date union trimmed to
the latest start date. -/
def alignedDates (input : List (String × List StockData)) : List ℕ :=
  match latestStart (forwardFilledOf input) with
  | none => []
  | some m => (sortedDatesOf input).filter (fun d => decide (m ≤ d))

/-- A raw input in which every requested ticker was fetched successfully with a
non-empty daily history of pairwise-distinct dates (the fetch layer rejects
empty histories, and a daily series carries one bar per date). -/
def ValidInput (input : List (String × List StockData)) : Prop :=
  input ≠ [] ∧ ∀ p ∈ input, p.2 ≠ [] ∧ (p.2.map StockData.Date).Nodup

instance : DecidablePred ValidInput := fun input => by
  unfold ValidInput
  exact instDecidableAnd

/-- The synthetic point inserted by the forward fill for date `d`: the last
known bar with its date replaced and its volume forced to 0. -/
def fillOf (o : StockData) (d : ℕ) : StockData :=
  { o with Date := d, Volume := 0 }

/-- Result record of `calculateVaRAndES` (`{ var: -VaR, es: -ES }`). -/
structure VaRES where
  var : ℚ
  es : ℚ
deriving DecidableEq, Repr

/-- Model of `calculateVaRAndES` (RiskEngineDisplay lines 54–71): empty input returns
zeros; otherwise the returns are sorted ascending, `index = ⌊α·n⌋` with
`α = 1 - confidence/100`, `VaR = sortedReturns[index] || 0` (an out-of-range
read yields the fallback 0), the tail is `sortedReturns.slice(0, index)`
(JavaScript `slice` counts a negative end from the end of the array, clamped
at 0), and `ES` is the tail's mean, falling back to `VaR` on an empty tail. -/
def calculateVaRAndES (portfolioReturns : List ℚ) (confidenceLevel : ℚ) : VaRES :=
  if portfolioReturns = [] then ⟨0, 0⟩
  else
    let sortedReturns := sortAsc portfolioReturns
    let alpha := 1 - confidenceLevel / 100
    let index : ℤ := ⌊alpha * (sortedReturns.length : ℚ)⌋
    let vaR : ℚ := if 0 ≤ index then sortedReturns.getD index.toNat 0 else 0
    let tailReturns :=
      sortedReturns.take
        (if index < 0 then ((sortedReturns.length : ℤ) + index).toNat else index.toNat)
    let es : ℚ :=
      if tailReturns.length > 0 then tailReturns.sum / (tailReturns.length : ℚ)
      else vaR
    ⟨-vaR, -es⟩

noncomputable section

/-- Model of `calculateReturns` of the risk engine (RiskEngineDisplay lines 16–26):
simple returns `p[i]/p[i-1] - 1`, with a zero previous price contributing a
return of 0. -/
def calculateReturns : List ℝ → List ℝ
  | p0 :: p1 :: rest =>
      (if p0 ≠ 0 then p1 / p0 - 1 else 0) :: calculateReturns (p1 :: rest)
  | _ => []

/-- Model of `stdDev` (VolatilityLab lines 40–46): Bessel-corrected sample standard
deviation, 0 for fewer than two points. -/
def stdDev (arr : List ℝ) : ℝ :=
  let n := arr.length
  if n < 2 then 0
  else
    let mean := arr.sum / (n : ℝ)
    let variance := ((arr.map (fun val => (val - mean) ^ 2)).sum) / ((n : ℝ) - 1)
    Real.sqrt variance

/-- The numerator `n·ΣXY - ΣX·ΣY` of `correlation` (VolatilityLab lines 48–59),
with the source's index loop rendered as sums over `Finset.range n`. -/
def corrNum (x y : List ℝ) : ℝ :=
  let n := x.length
  (n : ℝ) * (∑ i in Finset.range n, x.getD i 0 * y.getD i 0) -
    (∑ i in Finset.range n, x.getD i 0) * (∑ i in Finset.range n, y.getD i 0)

/-- The denominator `√((n·ΣX² - ΣX²)·(n·ΣY² - ΣY²))` of `correlation`. -/
def corrDen (x y : List ℝ) : ℝ :=
  let n := x.length
  Real.sqrt
    (((n : ℝ) * (∑ i in Finset.range n, x.getD i 0 * x.getD i 0) -
        (∑ i in Finset.range n, x.getD i 0) ^ 2) *
      ((n : ℝ) * (∑ i in Finset.range n, y.getD i 0 * y.getD i 0) -
        (∑ i in Finset.range n, y.getD i 0) ^ 2))

/-- Model of `correlation` (VolatilityLab lines 48–59): returns 0 for empty or
length-mismatched inputs, returns 0 when the denominator is exactly 0, and
otherwise the Pearson ratio. -/
def correlation (x y : List ℝ) : ℝ :=
  if x.length = 0 ∨ y.length ≠ x.length then 0
  else if corrDen x y = 0 then 0 else corrNum x y / corrDen x y

/-- The constant `lambda = 0.94` of the GARCH-lite branch (VolatilityLab line 237). -/
def lambdaEwma : ℝ := 0.94

/-- The constant `annualizationFactor = Math.sqrt(252)` (VolatilityLab line 224). -/
def annualizationFactor : ℝ := Real.sqrt 252

/-- The GARCH-lite (EWMA) volatility series (VolatilityLab lines 236–243):
the variance accumulator is seeded with `stdDev(returns.slice(0, windowSize))²`
and, for each index `i` from `windowSize` to the end, updated by
`λ·variance + (1-λ)·returns[i-1]²` before emitting
`√variance · annualizationFactor`. -/
def ewmaVolSeries (assetReturns : List ℝ) (windowSize : ℕ) : List ℝ :=
  ((List.range' windowSize (assetReturns.length - windowSize)).foldl
    (fun acc i =>
      let lastVariance :=
        lambdaEwma * acc.1 + (1 - lambdaEwma) * (assetReturns.getD (i - 1) 0) ^ 2
      (lastVariance, acc.2 ++ [Real.sqrt lastVariance * annualizationFactor]))
    ((stdDev (assetReturns.take windowSize)) ^ 2, ([] : List ℝ))).2

/-- The EWMA variance recurrence as the spec words it, for comparison with the
source loop: seed `variance₀ = sampleStdDev(returns[0..windowSize))²`, then
`variance_t = 0.94·variance_{t-1} + (1 - 0.94)·return_{t-1}²`, where step `t`
of the loop sits at source index `i = windowSize + t - 1 + 1`, so the return
entering step `t+1` is `returns[windowSize + t - 1]`. -/
def specEwmaVariance (assetReturns : List ℝ) (windowSize : ℕ) : ℕ → ℝ
  | 0 => (stdDev (assetReturns.take windowSize)) ^ 2
  | t + 1 =>
      0.94 * specEwmaVariance assetReturns windowSize t +
        (1 - 0.94) * (assetReturns.getD (windowSize + t - 1) 0) ^ 2

end

/-- Ticker A's bars for the forward-fill example: days 1 and 5. -/
def exBarA1 : StockData := ⟨1, 10, 11, 9, 10, 100⟩

/-- Second bar of ticker A. -/
def exBarA5 : StockData := ⟨5, 12, 13, 11, 12, 150⟩

/-- Ticker B's bars: days 2 and 5. -/
def exBarB2 : StockData := ⟨2, 20, 21, 19, 20, 200⟩

/-- Second bar of ticker B. -/
def exBarB5 : StockData := ⟨5, 22, 23, 21, 22, 250⟩

/-- Ticker C's bars: days 4 and 5. -/
def exBarC4 : StockData := ⟨4, 30, 31, 29, 30, 300⟩

/-- Second bar of ticker C. -/
def exBarC5 : StockData := ⟨5, 32, 33, 31, 32, 350⟩

/-- Three-ticker input where A misses day 2 (held by B) and C starts only on
day 4, so the common start date 4 lies after A's forward-filled day 2. -/
def exGapInput : List (String × List StockData) :=
  [("A", [exBarA1, exBarA5]), ("B", [exBarB2, exBarB5]), ("C", [exBarC4, exBarC5])]

/-- The aligned output of `exGapInput`: every series trimmed to days {4, 5},
with A's and B's day-4 bars forward-filled. -/
def exGapOutput : List (String × List StockData) :=
  [("A", [⟨4, 10, 11, 9, 10, 0⟩, exBarA5]),
   ("B", [⟨4, 20, 21, 19, 20, 0⟩, exBarB5]),
   ("C", [exBarC4, exBarC5])]

/-- Ticker X's gap-free bars on days 1 and 2. -/
def exBarsX : List StockData := [⟨1, 1, 1, 1, 1, 10⟩, ⟨2, 2, 2, 2, 2, 20⟩]

/-- Ticker Y's gap-free bars on days 1 and 2. -/
def exBarsY : List StockData := [⟨1, 3, 3, 3, 3, 30⟩, ⟨2, 4, 4, 4, 4, 40⟩]

/-- A gap-free two-ticker input on days 1 and 2. -/
def exPlainInput : List (String × List StockData) :=
  [("X", exBarsX), ("Y", exBarsY)]



/-! ## Sorting infrastructure -/

theorem insertLe_perm {α : Type} [LinearOrder α] (a : α) (l : List α) :
    List.Perm (insertLe a l) (a :: l) := by
  induction l with
  | nil => exact List.Perm.refl _
  | cons x xs ih =>
    simp only [insertLe]
    split
    · exact List.Perm.refl _
    · exact (ih.cons x).trans (List.Perm.swap a x xs)

theorem sortAsc_perm {α : Type} [LinearOrder α] (l : List α) :
    List.Perm (sortAsc l) l := by
  induction l with
  | nil => exact List.Perm.refl _
  | cons x xs ih =>
    exact (insertLe_perm x (sortAsc xs)).trans (ih.cons x)

theorem insertLe_pairwise {α : Type} [LinearOrder α] (a : α) (l : List α)
    (h : l.Pairwise (· ≤ ·)) : (insertLe a l).Pairwise (· ≤ ·) := by
  induction l with
  | nil => simp [insertLe]
  | cons x xs ih =>
    rw [List.pairwise_cons] at h
    simp only [insertLe]
    split
    · rename_i hax
      rw [List.pairwise_cons]
      refine ⟨?_, List.pairwise_cons.mpr h⟩
      intro b hb
      rcases List.mem_cons.mp hb with hbx | hbxs
      · exact hbx ▸ hax
      · exact le_trans hax (h.1 b hbxs)
    · rename_i hax
      rw [List.pairwise_cons]
      refine ⟨?_, ih h.2⟩
      intro b hb
      rcases List.mem_cons.mp ((insertLe_perm a xs).mem_iff.mp hb) with hba | hbxs
      · exact hba ▸ le_of_not_le hax
      · exact h.1 b hbxs

theorem sortAsc_pairwise {α : Type} [LinearOrder α] (l : List α) :
    (sortAsc l).Pairwise (· ≤ ·) := by
  induction l with
  | nil => simp [sortAsc]
  | cons x xs ih => exact insertLe_pairwise x (sortAsc xs) ih

theorem insertByDate_perm (a : StockData) (l : List StockData) :
    List.Perm (insertByDate a l) (a :: l) := by
  induction l with
  | nil => exact List.Perm.refl _
  | cons x xs ih =>
    simp only [insertByDate]
    split
    · exact List.Perm.refl _
    · exact (ih.cons x).trans (List.Perm.swap a x xs)

theorem sortByDate_perm (l : List StockData) :
    List.Perm (sortByDate l) l := by
  induction l with
  | nil => exact List.Perm.refl _
  | cons x xs ih =>
    exact (insertByDate_perm x (sortByDate xs)).trans (ih.cons x)

theorem sortedDatesOf_nodup (input : List (String × List StockData)) :
    (sortedDatesOf input).Nodup :=
  ((sortAsc_perm _).nodup_iff).mpr (List.nodup_dedup _)

theorem sortedDatesOf_pairwise_lt (input : List (String × List StockData)) :
    (sortedDatesOf input).Pairwise (· < ·) :=
  ((sortAsc_pairwise _).and (sortedDatesOf_nodup input)).imp
    (fun h => lt_of_le_of_ne h.1 h.2)

theorem mem_sortedDatesOf {input : List (String × List StockData)}
    {t : String} {h : List StockData} (hmem : (t, h) ∈ input) {p : StockData}
    (hp : p ∈ h) : p.Date ∈ sortedDatesOf input := by
  unfold sortedDatesOf
  rw [(sortAsc_perm _).mem_iff, List.mem_dedup, List.mem_flatten]
  exact ⟨h.map StockData.Date,
    List.mem_map.mpr ⟨(t, h), hmem, rfl⟩, List.mem_map.mpr ⟨p, hp, rfl⟩⟩

/-! ## The price-map lookup -/

theorem findByDate_some_mem {h : List StockData} {d : ℕ} {o : StockData}
    (ho : findByDate (sortByDate h) d = some o) : o ∈ h ∧ o.Date = d := by
  have h1 := List.find?_some ho
  have h2 := List.mem_of_find?_eq_some ho
  exact ⟨(sortByDate_perm h).mem_iff.mp h2, by simpa using h1⟩

theorem findByDate_dateOk (h : List StockData) :
    ∀ d o, findByDate (sortByDate h) d = some o → o.Date = d :=
  fun _ _ ho => (findByDate_some_mem ho).2

theorem findByDate_eq_none_iff {h : List StockData} {d : ℕ} :
    findByDate (sortByDate h) d = none ↔ ∀ q ∈ h, q.Date ≠ d := by
  unfold findByDate
  rw [List.find?_eq_none]
  constructor
  · intro hall q hq
    have := hall q ((sortByDate_perm h).mem_iff.mpr hq)
    simpa using this
  · intro hall q hq
    have := hall q ((sortByDate_perm h).mem_iff.mp hq)
    simpa using this

theorem findByDate_eq_some_of_mem {h : List StockData}
    (hnd : (h.map StockData.Date).Nodup) {p : StockData} (hp : p ∈ h) :
    findByDate (sortByDate h) p.Date = some p := by
  have hsome : (findByDate (sortByDate h) p.Date).isSome := by
    unfold findByDate
    rw [List.find?_isSome]
    exact ⟨p, (sortByDate_perm h).mem_iff.mpr hp, by simp⟩
  obtain ⟨q, hq⟩ := Option.isSome_iff_exists.mp hsome
  obtain ⟨hqh, hqd⟩ := findByDate_some_mem hq
  rwa [List.inj_on_of_nodup_map hnd hqh hp hqd] at hq

/-! ## The forward-fill walk -/

theorem ffLoop_map_date_some (pm : ℕ → Option StockData)
    (hpm : ∀ d o, pm d = some o → o.Date = d) :
    ∀ (ds : List ℕ) (lk : StockData),
      (ffLoop pm ds (some lk)).map StockData.Date = ds := by
  intro ds
  induction ds with
  | nil => intro lk; rfl
  | cons d ds ih =>
    intro lk
    cases hd : pm d with
    | some cur =>
      simp only [ffLoop, hd, List.map_cons, ih cur, hpm d cur hd]
    | none =>
      simp only [ffLoop, hd, List.map_cons, ih lk]

theorem ffLoop_map_date_none (pm : ℕ → Option StockData)
    (hpm : ∀ d o, pm d = some o → o.Date = d) :
    ∀ ds : List ℕ,
      (ffLoop pm ds none).map StockData.Date =
        ds.dropWhile (fun d => (pm d).isNone) := by
  intro ds
  induction ds with
  | nil => rfl
  | cons d ds ih =>
    cases hd : pm d with
    | some cur =>
      simp only [ffLoop, hd, List.map_cons, ffLoop_map_date_some pm hpm, hpm d cur hd,
        List.dropWhile_cons, Option.isNone_some, Bool.false_eq_true, if_false]
    | none =>
      simp only [ffLoop, hd, ih, List.dropWhile_cons, Option.isNone_none, if_true]

theorem ffLoop_mem_of_hit (pm : ℕ → Option StockData) :
    ∀ (ds : List ℕ) (last : Option StockData) (d : ℕ) (o : StockData),
      d ∈ ds → pm d = some o → o ∈ ffLoop pm ds last := by
  intro ds
  induction ds with
  | nil => intro _ _ _ h; exact absurd h (List.not_mem_nil _)
  | cons x xs ih =>
    intro last d o hd ho
    rcases List.mem_cons.mp hd with rfl | hdxs
    · simp only [ffLoop, ho]
      exact List.mem_cons_self _ _
    · cases hx : pm x with
      | some cur =>
        simp only [ffLoop, hx]
        exact List.mem_cons_of_mem _ (ih (some cur) d o hdxs ho)
      | none =>
        cases last with
        | some lk =>
          simp only [ffLoop, hx]
          exact List.mem_cons_of_mem _ (ih (some lk) d o hdxs ho)
        | none =>
          simp only [ffLoop, hx]
          exact ih none d o hdxs ho

theorem ffLoop_shape (pm : ℕ → Option StockData) (h : List StockData)
    (hpm : ∀ d o, pm d = some o → o.Date = d)
    (hmemh : ∀ d o, pm d = some o → o ∈ h) :
    ∀ (ds : List ℕ) (last : Option StockData),
      ds.Pairwise (· < ·) →
      (∀ lk, last = some lk → lk ∈ h ∧ ∀ d ∈ ds, lk.Date < d) →
      ∀ p ∈ ffLoop pm ds last,
        p ∈ h ∨
          (p.Volume = 0 ∧ ∃ q ∈ h, q.Date < p.Date ∧ q.Open = p.Open ∧
            q.High = p.High ∧ q.Low = p.Low ∧ q.Close = p.Close) := by
  intro ds
  induction ds with
  | nil => intro last _ _ p hp; exact absurd hp (List.not_mem_nil p)
  | cons d ds ih =>
    intro last hpw hlast p hp
    rw [List.pairwise_cons] at hpw
    cases hd : pm d with
    | some cur =>
      simp only [ffLoop, hd] at hp
      rcases List.mem_cons.mp hp with rfl | hrec
      · exact Or.inl (hmemh d p hd)
      · refine ih (some cur) hpw.2 ?_ p hrec
        rintro lk hlk
        injection hlk with hlk
        subst hlk
        exact ⟨hmemh d cur hd, fun e he => (hpm d cur hd) ▸ hpw.1 e he⟩
    | none =>
      cases hl : last with
      | some lk =>
        subst hl
        simp only [ffLoop, hd] at hp
        obtain ⟨hlkh, hlkd⟩ := hlast lk rfl
        rcases List.mem_cons.mp hp with rfl | hrec
        · refine Or.inr ⟨rfl, lk, hlkh, ?_, rfl, rfl, rfl, rfl⟩
          exact hlkd d (List.mem_cons_self d ds)
        · refine ih (some lk) hpw.2 ?_ p hrec
          rintro lk' hlk'
          injection hlk' with hlk'
          subst hlk'
          exact ⟨hlkh, fun e he => hlkd e (List.mem_cons_of_mem d he)⟩
      | none =>
        subst hl
        simp only [ffLoop, hd] at hp
        refine ih none hpw.2 ?_ p hp
        rintro lk hlk
        exact absurd hlk (by simp)

theorem ffLoop_fill_mem_of_last (pm : ℕ → Option StockData) :
    ∀ (ds : List ℕ) (d : ℕ), ds.Pairwise (· < ·) → d ∈ ds → pm d = none →
      (∀ e ∈ ds, e < d → pm e = none) →
      ∀ lk : StockData, fillOf lk d ∈ ffLoop pm ds (some lk) := by
  intro ds
  induction ds with
  | nil => intro d _ hd; exact absurd hd (List.not_mem_nil d)
  | cons x xs ih =>
    intro d hpw hd hnone hbefore lk
    rw [List.pairwise_cons] at hpw
    rcases List.mem_cons.mp hd with rfl | hdxs
    · simp only [ffLoop, hnone]
      exact List.mem_cons_self _ _
    · have hxd : x < d := hpw.1 d hdxs
      have hx : pm x = none := hbefore x (List.mem_cons_self x xs) hxd
      simp only [ffLoop, hx]
      exact List.mem_cons_of_mem _
        (ih d hpw.2 hdxs hnone
          (fun e he hed => hbefore e (List.mem_cons_of_mem x he) hed) lk)

theorem ffLoop_fill_mem (pm : ℕ → Option StockData) :
    ∀ (ds : List ℕ) (d' d : ℕ) (o : StockData), ds.Pairwise (· < ·) →
      d' ∈ ds → d ∈ ds → d' < d → pm d' = some o → pm d = none →
      (∀ e ∈ ds, d' < e → e < d → pm e = none) →
      ∀ last : Option StockData, fillOf o d ∈ ffLoop pm ds last := by
  intro ds
  induction ds with
  | nil => intro d' _ _ _ hd'; exact absurd hd' (List.not_mem_nil d')
  | cons x xs ih =>
    intro d' d o hpw hd' hd hlt hsome hnone hmid last
    rw [List.pairwise_cons] at hpw
    rcases List.mem_cons.mp hd' with rfl | hd'xs
    · -- the observation's date is at the head of the remaining dates
      have hdxs : d ∈ xs := by
        rcases List.mem_cons.mp hd with rfl | h
        · exact absurd hlt (lt_irrefl d)
        · exact h
      simp only [ffLoop, hsome]
      refine List.mem_cons_of_mem _ ?_
      refine ffLoop_fill_mem_of_last pm xs d hpw.2 hdxs hnone ?_ o
      intro e he hed
      exact hmid e (List.mem_cons_of_mem d' he) (hpw.1 e he) hed
    · have hxd' : x < d' := hpw.1 d' hd'xs
      have hdxs : d ∈ xs := by
        rcases List.mem_cons.mp hd with rfl | h
        · exact absurd (lt_trans hxd' hlt) (lt_irrefl d)
        · exact h
      have hrec : ∀ last : Option StockData, fillOf o d ∈ ffLoop pm xs last :=
        fun l => ih d' d o hpw.2 hd'xs hdxs hlt hsome hnone
          (fun e he => hmid e (List.mem_cons_of_mem x he)) l
      cases hx : pm x with
      | some cur =>
        simp only [ffLoop, hx]
        exact List.mem_cons_of_mem _ (hrec (some cur))
      | none =>
        cases last with
        | some lk =>
          simp only [ffLoop, hx]
          exact List.mem_cons_of_mem _ (hrec (some lk))
        | none =>
          simp only [ffLoop, hx]
          exact hrec none

theorem ffLoop_skip (pm : ℕ → Option StockData)
    (hpm : ∀ d o, pm d = some o → o.Date = d) :
    ∀ (ds : List ℕ) (d : ℕ), ds.Pairwise (· < ·) → pm d = none →
      (∀ e ∈ ds, e < d → pm e = none) →
      ∀ p ∈ ffLoop pm ds none, p.Date ≠ d := by
  intro ds
  induction ds with
  | nil => intro d _ _ _ p hp; exact absurd hp (List.not_mem_nil p)
  | cons x xs ih =>
    intro d hpw hnone hbefore p hp
    rw [List.pairwise_cons] at hpw
    cases hx : pm x with
    | some cur =>
      have hxd : d < x := by
        rcases lt_trichotomy x d with h | rfl | h
        · exact absurd hx (by rw [hbefore x (List.mem_cons_self x xs) h]; simp)
        · exact absurd hx (by rw [hnone]; simp)
        · exact h
      simp only [ffLoop, hx] at hp
      rcases List.mem_cons.mp hp with rfl | hrec
      · rw [hpm x p hx]
        exact (ne_of_lt hxd).symm
      · have hdate : p.Date ∈ xs := by
          have : p.Date ∈ (ffLoop pm xs (some cur)).map StockData.Date :=
            List.mem_map_of_mem StockData.Date hrec
          rwa [ffLoop_map_date_some pm hpm] at this
        exact fun hc => absurd (hpw.1 p.Date hdate) (by rw [hc]; exact not_lt_of_lt hxd)
    | none =>
      simp only [ffLoop, hx] at hp
      exact ih d hpw.2 hnone
        (fun e he hed => hbefore e (List.mem_cons_of_mem x he) hed) p hp

/-! ## The latest-start-date scan -/

theorem latestStart_foldl_mono :
    ∀ (l : List (String × List StockData)) (a : ℕ),
      ∃ m, l.foldl latestStartStep (some a) = some m ∧ a ≤ m := by
  intro l
  induction l with
  | nil => intro a; exact ⟨a, rfl, le_refl a⟩
  | cons x xs ih =>
    intro a
    cases hx : x.2.head? with
    | none =>
      simp only [List.foldl_cons, latestStartStep, hx]
      exact ih a
    | some q =>
      simp only [List.foldl_cons, latestStartStep, hx]
      by_cases hq : a < q.Date
      · simp only [hq, if_true]
        obtain ⟨m, hm, hle⟩ := ih q.Date
        exact ⟨m, hm, le_trans (le_of_lt hq) hle⟩
      · simp only [hq, if_false]
        exact ih a

theorem latestStart_mem :
    ∀ (l : List (String × List StockData)) (acc : Option ℕ)
      (p : String × List StockData), p ∈ l → ∀ q, p.2.head? = some q →
      ∃ m, l.foldl latestStartStep acc = some m ∧ q.Date ≤ m := by
  intro l
  induction l with
  | nil => intro _ p hp; exact absurd hp (List.not_mem_nil p)
  | cons x xs ih =>
    intro acc p hp q hq
    rcases List.mem_cons.mp hp with rfl | hpxs
    · cases acc with
      | none =>
        simp only [List.foldl_cons, latestStartStep, hq]
        exact latestStart_foldl_mono xs q.Date
      | some a =>
        simp only [List.foldl_cons, latestStartStep, hq]
        by_cases ha : a < q.Date
        · simp only [ha, if_true]
          exact latestStart_foldl_mono xs q.Date
        · simp only [ha, if_false]
          obtain ⟨m, hm, hle⟩ := latestStart_foldl_mono xs a
          exact ⟨m, hm, le_trans (le_of_not_lt ha) hle⟩
    · exact ih (latestStartStep acc x) p hpxs q hq

/-! ## Per-ticker characterisation of the aligned dates -/

theorem map_date_filter (s : List StockData) (P : ℕ → Bool) :
    (s.filter (fun p => P p.Date)).map StockData.Date =
      (s.map StockData.Date).filter P := by
  induction s with
  | nil => rfl
  | cons x xs ih =>
    by_cases hx : P x.Date
    · simp [List.filter_cons, hx, ih]
    · simp [List.filter_cons, hx, ih]

theorem forwardFill_map_date (input : List (String × List StockData))
    (h : List StockData) :
    (forwardFill (sortedDatesOf input) h).map StockData.Date =
      (sortedDatesOf input).dropWhile
        (fun d => (findByDate (sortByDate h) d).isNone) :=
  ffLoop_map_date_none _ (findByDate_dateOk h) _

theorem forwardFill_ne_nil {input : List (String × List StockData)}
    {t : String} {h : List StockData} (hmem : (t, h) ∈ input) (hne : h ≠ [])
    (hnd : (h.map StockData.Date).Nodup) :
    forwardFill (sortedDatesOf input) h ≠ [] := by
  intro hcon
  obtain ⟨p, hp⟩ := List.exists_mem_of_ne_nil h hne
  have hdrop : (sortedDatesOf input).dropWhile
      (fun d => (findByDate (sortByDate h) d).isNone) = [] := by
    rw [← forwardFill_map_date, hcon, List.map_nil]
  rw [List.dropWhile_eq_nil_iff] at hdrop
  have := hdrop p.Date (mem_sortedDatesOf hmem hp)
  rw [findByDate_eq_some_of_mem hnd hp] at this
  simp at this

theorem latestStart_exists {input : List (String × List StockData)}
    (hv : ValidInput input) :
    ∃ L, latestStart (forwardFilledOf input) = some L := by
  obtain ⟨hne, hall⟩ := hv
  obtain ⟨p, hp⟩ := List.exists_mem_of_ne_nil input hne
  obtain ⟨hpne, hpnd⟩ := hall p hp
  have hmem : (p.1, p.2) ∈ input := by simpa using hp
  have hffne := forwardFill_ne_nil hmem hpne hpnd
  obtain ⟨f₀, ffs, hffcons⟩ : ∃ a l, forwardFill (sortedDatesOf input) p.2 = a :: l := by
    cases hc : forwardFill (sortedDatesOf input) p.2 with
    | nil => exact absurd hc hffne
    | cons a l => exact ⟨a, l, rfl⟩
  have hffmem : (p.1, forwardFill (sortedDatesOf input) p.2) ∈ forwardFilledOf input :=
    List.mem_map_of_mem _ hp
  obtain ⟨m, hm, _⟩ :=
    latestStart_mem (forwardFilledOf input) none
      (p.1, forwardFill (sortedDatesOf input) p.2) hffmem f₀ (by rw [hffcons]; rfl)
  exact ⟨m, hm⟩

theorem trimmed_map_date {input : List (String × List StockData)}
    {L : ℕ} (hL : latestStart (forwardFilledOf input) = some L)
    {t : String} {h : List StockData} (hmem : (t, h) ∈ input)
    (hne : h ≠ []) (hnd : (h.map StockData.Date).Nodup) :
    (trimFrom (some L) (forwardFill (sortedDatesOf input) h)).map StockData.Date
      = (sortedDatesOf input).filter (fun d => decide (L ≤ d)) := by
  have h0 : trimFrom (some L) (forwardFill (sortedDatesOf input) h)
      = (forwardFill (sortedDatesOf input) h).filter (fun p => decide (L ≤ p.Date)) := rfl
  have h1 : (trimFrom (some L) (forwardFill (sortedDatesOf input) h)).map StockData.Date
      = ((forwardFill (sortedDatesOf input) h).map StockData.Date).filter
          (fun d => decide (L ≤ d)) := by
    rw [h0]
    exact map_date_filter (forwardFill (sortedDatesOf input) h) (fun d => decide (L ≤ d))
  have h2 := forwardFill_map_date input h
  have hffne : forwardFill (sortedDatesOf input) h ≠ [] :=
    forwardFill_ne_nil hmem hne hnd
  obtain ⟨f₀, ffs, hffcons⟩ : ∃ a l, forwardFill (sortedDatesOf input) h = a :: l := by
    cases hc : forwardFill (sortedDatesOf input) h with
    | nil => exact absurd hc hffne
    | cons a l => exact ⟨a, l, rfl⟩
  have hffmem : (t, forwardFill (sortedDatesOf input) h) ∈ forwardFilledOf input :=
    List.mem_map_of_mem _ hmem
  have hd₀L : f₀.Date ≤ L := by
    obtain ⟨m, hm, hle⟩ :=
      latestStart_mem (forwardFilledOf input) none
        (t, forwardFill (sortedDatesOf input) h) hffmem f₀ (by rw [hffcons]; rfl)
    have hLL : (forwardFilledOf input).foldl latestStartStep none = some L := hL
    rw [hLL] at hm
    injection hm with hm
    exact hm ▸ hle
  -- the date union splits into the skipped leading gap and the emitted suffix
  have hsplit := List.takeWhile_append_dropWhile
    (p := fun d => (findByDate (sortByDate h) d).isNone) (l := sortedDatesOf input)
  have hpw := sortedDatesOf_pairwise_lt input
  rw [← hsplit, List.pairwise_append] at hpw
  have hd₀mem : f₀.Date ∈ (sortedDatesOf input).dropWhile
      (fun d => (findByDate (sortByDate h) d).isNone) := by
    rw [← h2, hffcons, List.map_cons]
    exact List.mem_cons_self _ _
  have htake : ((sortedDatesOf input).takeWhile
      (fun d => (findByDate (sortByDate h) d).isNone)).filter
        (fun d => decide (L ≤ d)) = [] := by
    rw [List.filter_eq_nil_iff]
    intro a ha
    have halt : a < f₀.Date := hpw.2.2 a ha f₀.Date hd₀mem
    simp only [decide_eq_true_eq]
    exact not_le_of_lt (lt_of_lt_of_le halt hd₀L)
  calc (trimFrom (some L) (forwardFill (sortedDatesOf input) h)).map StockData.Date
      = ((sortedDatesOf input).dropWhile
          (fun d => (findByDate (sortByDate h) d).isNone)).filter
            (fun d => decide (L ≤ d)) := by rw [h1, h2]
    _ = (sortedDatesOf input).filter (fun d => decide (L ≤ d)) := by
        conv_rhs => rw [← hsplit]
        rw [List.filter_append, htake, List.nil_append]

theorem fetch_ok_eq {input : List (String × List StockData)} (hne : input ≠ [])
    {out : List (String × List StockData)}
    (hout : fetchMultipleStockHistories input = Except.ok out) :
    out = alignedOf input := by
  unfold fetchMultipleStockHistories at hout
  rw [if_neg hne] at hout
  split at hout
  · exact Except.noConfusion hout
  · split at hout
    · exact Except.noConfusion hout
    · injection hout with h
      exact h.symm

theorem mem_alignedOf {input : List (String × List StockData)}
    {r : String × List StockData} (hr : r ∈ alignedOf input) :
    ∃ s ∈ input,
      r = (s.1, trimFrom (latestStart (forwardFilledOf input))
        (forwardFill (sortedDatesOf input) s.2)) := by
  unfold alignedOf at hr
  obtain ⟨q, hq, hqr⟩ := List.mem_map.mp hr
  unfold forwardFilledOf at hq
  obtain ⟨s, hs, hsq⟩ := List.mem_map.mp hq
  exact ⟨s, hs, by rw [← hqr, ← hsq]⟩

/-- C1: for every valid raw input (each requested ticker fetched
successfully with a non-empty daily history), any two series in the aligned
output of `fetchMultipleStockHistories` have the same length and carry the
identical date at each index. -/
theorem c1_alignment_invariant (input : List (String × List StockData))
    (hv : ValidInput input) (out : List (String × List StockData))
    (hout : fetchMultipleStockHistories input = Except.ok out) :
    ∀ p ∈ out, ∀ q ∈ out,
      p.2.length = q.2.length ∧
      ∀ (i : ℕ) (hip : i < p.2.length) (hiq : i < q.2.length),
        (p.2.get ⟨i, hip⟩).Date = (q.2.get ⟨i, hiq⟩).Date := by
  obtain ⟨L, hL⟩ := latestStart_exists hv
  have hrout : out = alignedOf input := fetch_ok_eq hv.1 hout
  subst hrout
  intro p hp q hq
  obtain ⟨sp, hsp, hpe⟩ := mem_alignedOf hp
  obtain ⟨sq, hsq, hqe⟩ := mem_alignedOf hq
  have hspm : (sp.1, sp.2) ∈ input := by simpa using hsp
  have hsqm : (sq.1, sq.2) ∈ input := by simpa using hsq
  obtain ⟨hpne, hpnd⟩ := hv.2 sp hsp
  obtain ⟨hqne, hqnd⟩ := hv.2 sq hsq
  have hdp : (p.2.map StockData.Date)
      = (sortedDatesOf input).filter (fun d => decide (L ≤ d)) := by
    rw [hpe]
    simpa [hL] using trimmed_map_date hL hspm hpne hpnd
  have hdq : (q.2.map StockData.Date)
      = (sortedDatesOf input).filter (fun d => decide (L ≤ d)) := by
    rw [hqe]
    simpa [hL] using trimmed_map_date hL hsqm hqne hqnd
  have hlen : p.2.length = q.2.length := by
    have := congrArg List.length (hdp.trans hdq.symm)
    simpa using this
  refine ⟨hlen, ?_⟩
  intro i hip hiq
  have e1 : (p.2.map StockData.Date).get? i = some ((p.2.get ⟨i, hip⟩).Date) := by
    rw [List.get?_map, List.get?_eq_get hip]
    rfl
  have e2 : (q.2.map StockData.Date).get? i = some ((q.2.get ⟨i, hiq⟩).Date) := by
    rw [List.get?_map, List.get?_eq_get hiq]
    rfl
  have : some ((p.2.get ⟨i, hip⟩).Date) = some ((q.2.get ⟨i, hiq⟩).Date) := by
    rw [← e1, ← e2, hdp, hdq]
  injection this

/-- C1 witness: the invariant evaluated on a concrete gap-free two-ticker
input, instantiated at the two series and index 0. -/
theorem c1_witness :
    exBarsX.length = exBarsY.length ∧
    (exBarsX.get ⟨0, by decide⟩).Date = (exBarsY.get ⟨0, by decide⟩).Date := by
  have h := c1_alignment_invariant exPlainInput (by decide) exPlainInput rfl
    ("X", exBarsX) (by decide) ("Y", exBarsY) (by decide)
  exact ⟨h.1, h.2 0 (by decide) (by decide)⟩

/-- C3 counterexample: when no ticker produced any series at all (an empty
request list), the aligner returns the empty aligned result `{}` without any
error, whereas the claim demands an insufficient-data failure in this case. -/
theorem c3_counterexample :
    fetchMultipleStockHistories [] = Except.ok [] ∧
      ∀ e, fetchMultipleStockHistories [] ≠ Except.error e := by
  refine ⟨rfl, ?_⟩
  intro e h
  rw [show fetchMultipleStockHistories [] = Except.ok [] from rfl] at h
  exact Except.noConfusion h

/-- C3 (amended): on an input with no tickers the aligner returns the empty
result without error; for every valid non-empty input it fails with the
insufficient-data error exactly when the common (trimmed) series length is
less than 2, and in the success case every returned series has exactly that
common length. -/
theorem c3_amended (input : List (String × List StockData))
    (hv : ValidInput input) :
    ((∃ e, fetchMultipleStockHistories input = Except.error e) ↔
      (alignedDates input).length < 2) ∧
    (∀ out, fetchMultipleStockHistories input = Except.ok out →
      ∀ p ∈ out, p.2.length = (alignedDates input).length) := by
  obtain ⟨L, hL⟩ := latestStart_exists hv
  have hdates : alignedDates input
      = (sortedDatesOf input).filter (fun d => decide (L ≤ d)) := by
    unfold alignedDates
    rw [hL]
  -- every aligned series has the common length
  have hserieslen : ∀ p ∈ alignedOf input, p.2.length = (alignedDates input).length := by
    intro p hp
    obtain ⟨s, hs, hpe⟩ := mem_alignedOf hp
    obtain ⟨hne, hnd⟩ := hv.2 s hs
    have hsm : (s.1, s.2) ∈ input := by simpa using hs
    have hmd := trimmed_map_date hL hsm hne hnd
    have : (p.2.map StockData.Date) = alignedDates input := by
      rw [hpe, hdates]
      simpa [hL] using hmd
    have := congrArg List.length this
    simpa using this
  -- the head of the aligned output exists and has the common length
  obtain ⟨p₀, rest, hcons⟩ : ∃ a l, input = a :: l := by
    cases hc : input with
    | nil => exact absurd hc hv.1
    | cons a l => exact ⟨a, l, rfl⟩
  subst hcons
  have hhead : (alignedOf (p₀ :: rest)).head? = some
      (p₀.1, trimFrom (latestStart (forwardFilledOf (p₀ :: rest)))
        (forwardFill (sortedDatesOf (p₀ :: rest)) p₀.2)) := rfl
  have hheadmem : (p₀.1, trimFrom (latestStart (forwardFilledOf (p₀ :: rest)))
      (forwardFill (sortedDatesOf (p₀ :: rest)) p₀.2)) ∈ alignedOf (p₀ :: rest) :=
    List.mem_cons_self _ _
  have hheadlen : (trimFrom (latestStart (forwardFilledOf (p₀ :: rest)))
      (forwardFill (sortedDatesOf (p₀ :: rest)) p₀.2)).length
      = (alignedDates (p₀ :: rest)).length := hserieslen _ hheadmem
  have hfetch : fetchMultipleStockHistories (p₀ :: rest) =
      if (alignedDates (p₀ :: rest)).length < 2 then Except.error insufficientDataMsg
      else Except.ok (alignedOf (p₀ :: rest)) := by
    unfold fetchMultipleStockHistories
    rw [if_neg hv.1, hhead]
    simp only [hheadlen]
  constructor
  · constructor
    · rintro ⟨e, he⟩
      rw [hfetch] at he
      by_contra hlen
      rw [if_neg hlen] at he
      exact Except.noConfusion he
    · intro hlen
      exact ⟨insufficientDataMsg, by rw [hfetch, if_pos hlen]⟩
  · intro out hout p hp
    have : out = alignedOf (p₀ :: rest) := fetch_ok_eq hv.1 hout
    exact hserieslen p (this ▸ hp)

/-- C3 (amended) witness: the amended statement evaluated on a concrete
valid input with common length 2 (no error, every series of length 2). -/
theorem c3_witness :
    ((∃ e, fetchMultipleStockHistories exPlainInput = Except.error e) ↔
      (alignedDates exPlainInput).length < 2) ∧
    (∀ out, fetchMultipleStockHistories exPlainInput = Except.ok out →
      ∀ p ∈ out, p.2.length = (alignedDates exPlainInput).length) :=
  c3_amended exPlainInput (by decide)

/-- C2 counterexample: in `exGapInput`, date 2 lies in the sorted date
union, ticker A (history `[exBarA1, exBarA5]`) has no bar on date 2 and its
nearest prior observation is `exBarA1` on date 1 — yet the aligned output,
trimmed to the common start date 4, contains no point dated 2 in any series,
so A's aligned series does not carry the forward-filled day-2 point the claim
promises. -/
theorem c2_counterexample :
    2 ∈ sortedDatesOf exGapInput ∧
    ("A", [exBarA1, exBarA5]) ∈ exGapInput ∧
    (∀ q ∈ [exBarA1, exBarA5], q.Date ≠ 2) ∧
    exBarA1 ∈ [exBarA1, exBarA5] ∧ exBarA1.Date < 2 ∧
    (∀ q ∈ [exBarA1, exBarA5], q.Date < 2 → q.Date ≤ exBarA1.Date) ∧
    fetchMultipleStockHistories exGapInput = Except.ok exGapOutput ∧
    (∀ s ∈ exGapOutput, ∀ p ∈ s.2, p.Date ≠ 2) := by
  refine ⟨by decide, by decide, by decide, by decide, by decide, by decide, rfl, by decide⟩

/-- C2 (amended): for a valid input, a ticker `h` and a union date `D`
with no real observation of the ticker, the *forward-filled* (pre-trim) series
contains the synthetic point built from the nearest prior observation (same
OHLC, date `D`, volume 0); the *aligned* series additionally contains it
whenever `D` is at or after the common start date.  If the ticker has no
observation on or before `D`, date `D` is skipped for it. -/
theorem c2_forward_fill (input : List (String × List StockData))
    (hv : ValidInput input) (t : String) (h : List StockData)
    (hmem : (t, h) ∈ input) (D : ℕ) (hD : D ∈ sortedDatesOf input) :
    ((∀ q ∈ h, q.Date ≠ D) → ∀ o ∈ h, o.Date < D →
      (∀ q ∈ h, q.Date < D → q.Date ≤ o.Date) →
      fillOf o D ∈ forwardFill (sortedDatesOf input) h ∧
        ∀ L, latestStart (forwardFilledOf input) = some L → L ≤ D →
          fillOf o D ∈ trimFrom (some L) (forwardFill (sortedDatesOf input) h)) ∧
    ((∀ q ∈ h, D < q.Date) →
      ∀ p ∈ forwardFill (sortedDatesOf input) h, p.Date ≠ D) := by
  obtain ⟨hne, hnd⟩ := hv.2 (t, h) hmem
  constructor
  · intro hnoobs o ho holt hnear
    have hpmD : findByDate (sortByDate h) D = none :=
      findByDate_eq_none_iff.mpr hnoobs
    have hpmo : findByDate (sortByDate h) o.Date = some o :=
      findByDate_eq_some_of_mem hnd ho
    have hoD : o.Date ∈ sortedDatesOf input := mem_sortedDatesOf hmem ho
    have hmid : ∀ e ∈ sortedDatesOf input, o.Date < e → e < D →
        findByDate (sortByDate h) e = none := by
      intro e _ hoe heD
      cases hfe : findByDate (sortByDate h) e with
      | none => rfl
      | some w =>
        obtain ⟨hwh, hwd⟩ := findByDate_some_mem hfe
        have := hnear w hwh (hwd ▸ heD)
        rw [hwd] at this
        exact absurd this (not_le_of_lt hoe)
    have hfill : fillOf o D ∈ forwardFill (sortedDatesOf input) h :=
      ffLoop_fill_mem _ (sortedDatesOf input) o.Date D o
        (sortedDatesOf_pairwise_lt input) hoD hD holt hpmo hpmD hmid none
    refine ⟨hfill, ?_⟩
    intro L _ hLD
    have : trimFrom (some L) (forwardFill (sortedDatesOf input) h)
        = (forwardFill (sortedDatesOf input) h).filter
            (fun p => decide (L ≤ p.Date)) := rfl
    rw [this]
    refine List.mem_filter.mpr ⟨hfill, ?_⟩
    simpa [fillOf] using hLD
  · intro hafter p hp
    have hpmD : findByDate (sortByDate h) D = none := by
      refine findByDate_eq_none_iff.mpr ?_
      intro q hq
      exact (ne_of_lt (hafter q hq)).symm
    have hbefore : ∀ e ∈ sortedDatesOf input, e < D →
        findByDate (sortByDate h) e = none := by
      intro e _ heD
      cases hfe : findByDate (sortByDate h) e with
      | none => rfl
      | some w =>
        obtain ⟨hwh, hwd⟩ := findByDate_some_mem hfe
        have := hafter w hwh
        rw [hwd] at this
        exact absurd heD (not_lt_of_lt this)
    exact ffLoop_skip _ (findByDate_dateOk h) (sortedDatesOf input) D
      (sortedDatesOf_pairwise_lt input) hpmD hbefore p hp

/-- C2 (amended) witness: the amended statement evaluated at `exGapInput`,
ticker A, date 2. -/
theorem c2_witness :
    ((∀ q ∈ [exBarA1, exBarA5], q.Date ≠ 2) → ∀ o ∈ [exBarA1, exBarA5], o.Date < 2 →
      (∀ q ∈ [exBarA1, exBarA5], q.Date < 2 → q.Date ≤ o.Date) →
      fillOf o 2 ∈ forwardFill (sortedDatesOf exGapInput) [exBarA1, exBarA5] ∧
        ∀ L, latestStart (forwardFilledOf exGapInput) = some L → L ≤ 2 →
          fillOf o 2 ∈ trimFrom (some L)
            (forwardFill (sortedDatesOf exGapInput) [exBarA1, exBarA5])) ∧
    ((∀ q ∈ [exBarA1, exBarA5], 2 < q.Date) →
      ∀ p ∈ forwardFill (sortedDatesOf exGapInput) [exBarA1, exBarA5], p.Date ≠ 2) :=
  c2_forward_fill exGapInput (by decide) "A" [exBarA1, exBarA5] (by decide) 2 (by decide)

/-- C9: alignment never modifies real observations — every input bar dated
at or after the common start date appears unchanged in the ticker's aligned
series, and every point of the aligned series is either an untouched input bar
or a synthetic forward-filled point (volume 0, OHLC copied from an earlier
input bar); the ticker's aligned series is exactly the one in the output. -/
theorem c9_frame_effect (input : List (String × List StockData))
    (hv : ValidInput input) (t : String) (h : List StockData)
    (hmem : (t, h) ∈ input) :
    ((t, trimFrom (latestStart (forwardFilledOf input))
        (forwardFill (sortedDatesOf input) h)) ∈ alignedOf input) ∧
    (∀ L, latestStart (forwardFilledOf input) = some L →
      ∀ p ∈ h, L ≤ p.Date →
        p ∈ trimFrom (latestStart (forwardFilledOf input))
          (forwardFill (sortedDatesOf input) h)) ∧
    (∀ p ∈ trimFrom (latestStart (forwardFilledOf input))
        (forwardFill (sortedDatesOf input) h),
      p ∈ h ∨ (p.Volume = 0 ∧ ∃ q ∈ h, q.Date < p.Date ∧ q.Open = p.Open ∧
        q.High = p.High ∧ q.Low = p.Low ∧ q.Close = p.Close)) := by
  obtain ⟨hne, hnd⟩ := hv.2 (t, h) hmem
  obtain ⟨L, hL⟩ := latestStart_exists hv
  refine ⟨?_, ?_, ?_⟩
  · unfold alignedOf
    exact List.mem_map_of_mem _ (List.mem_map_of_mem _ hmem)
  · intro L' hL' p hp hLp
    rw [hL']
    have hpm : findByDate (sortByDate h) p.Date = some p :=
      findByDate_eq_some_of_mem hnd hp
    have hpd : p.Date ∈ sortedDatesOf input := mem_sortedDatesOf hmem hp
    have hff : p ∈ forwardFill (sortedDatesOf input) h :=
      ffLoop_mem_of_hit _ (sortedDatesOf input) none p.Date p hpd hpm
    exact List.mem_filter.mpr ⟨hff, by simpa using hLp⟩
  · intro p hp
    rw [hL] at hp
    have hff : p ∈ forwardFill (sortedDatesOf input) h :=
      (List.mem_filter.mp hp).1
    refine ffLoop_shape _ h (findByDate_dateOk h)
      (fun d o ho => (findByDate_some_mem ho).1) (sortedDatesOf input) none
      (sortedDatesOf_pairwise_lt input) ?_ p hff
    intro lk hlk
    exact Option.noConfusion hlk

/-- C9 witness: the frame property evaluated at `exGapInput`, ticker A. -/
theorem c9_witness :
    (("A", trimFrom (latestStart (forwardFilledOf exGapInput))
        (forwardFill (sortedDatesOf exGapInput) [exBarA1, exBarA5])) ∈ alignedOf exGapInput) ∧
    (∀ L, latestStart (forwardFilledOf exGapInput) = some L →
      ∀ p ∈ [exBarA1, exBarA5], L ≤ p.Date →
        p ∈ trimFrom (latestStart (forwardFilledOf exGapInput))
          (forwardFill (sortedDatesOf exGapInput) [exBarA1, exBarA5])) ∧
    (∀ p ∈ trimFrom (latestStart (forwardFilledOf exGapInput))
        (forwardFill (sortedDatesOf exGapInput) [exBarA1, exBarA5]),
      p ∈ [exBarA1, exBarA5] ∨ (p.Volume = 0 ∧ ∃ q ∈ [exBarA1, exBarA5],
        q.Date < p.Date ∧ q.Open = p.Open ∧ q.High = p.High ∧ q.Low = p.Low ∧
        q.Close = p.Close)) :=
  c9_frame_effect exGapInput (by decide) "A" [exBarA1, exBarA5] (by decide)

/-! ## VaR / Expected Shortfall -/

theorem varIndex_bounds (n : ℕ) (hn : 0 < n) (c : ℚ) (hc : c = 95 ∨ c = 99) :
    0 ≤ ⌊(1 - c / 100) * (n : ℚ)⌋ ∧ ⌊(1 - c / 100) * (n : ℚ)⌋ < (n : ℤ) := by
  have halpha : (0 : ℚ) < 1 - c / 100 ∧ (1 - c / 100) < 1 := by
    rcases hc with rfl | rfl <;> norm_num
  constructor
  · refine Int.floor_nonneg.mpr ?_
    have : (0 : ℚ) ≤ (n : ℚ) := Nat.cast_nonneg n
    exact mul_nonneg (le_of_lt halpha.1) this
  · rw [Int.floor_lt]
    push_cast
    have hnq : (0 : ℚ) < (n : ℚ) := by exact_mod_cast hn
    calc (1 - c / 100) * (n : ℚ) < 1 * (n : ℚ) :=
          mul_lt_mul_of_pos_right halpha.2 hnq
      _ = (n : ℚ) := one_mul _

theorem varES_var_eq (rs : List ℚ) (c : ℚ) (hne : rs ≠ [])
    (h0 : 0 ≤ ⌊(1 - c / 100) * ((sortAsc rs).length : ℚ)⌋) :
    (calculateVaRAndES rs c).var =
      -((sortAsc rs).getD (⌊(1 - c / 100) * ((sortAsc rs).length : ℚ)⌋).toNat 0) := by
  simp only [calculateVaRAndES, if_neg hne, if_pos h0]

theorem varES_es_eq (rs : List ℚ) (c : ℚ) (hne : rs ≠ [])
    (h0 : 0 ≤ ⌊(1 - c / 100) * ((sortAsc rs).length : ℚ)⌋)
    (h1 : ⌊(1 - c / 100) * ((sortAsc rs).length : ℚ)⌋ < ((sortAsc rs).length : ℤ)) :
    (calculateVaRAndES rs c).es =
      -(if 0 < (⌊(1 - c / 100) * ((sortAsc rs).length : ℚ)⌋).toNat
        then ((sortAsc rs).take (⌊(1 - c / 100) * ((sortAsc rs).length : ℚ)⌋).toNat).sum /
          (((⌊(1 - c / 100) * ((sortAsc rs).length : ℚ)⌋).toNat : ℕ) : ℚ)
        else (sortAsc rs).getD (⌊(1 - c / 100) * ((sortAsc rs).length : ℚ)⌋).toNat 0) := by
  have hle : (⌊(1 - c / 100) * ((sortAsc rs).length : ℚ)⌋).toNat ≤ (sortAsc rs).length := by
    omega
  simp only [calculateVaRAndES, if_neg hne, if_pos h0, if_neg (not_lt.mpr h0),
    List.length_take, min_eq_left hle, gt_iff_lt]

/-- C4: for a non-empty portfolio return series and confidence level 95 or
99, `calculateVaRAndES` sorts the returns ascending, takes
`index = ⌊(1 - c/100)·n⌋`, returns `var` as the negated sorted return at
`index` and `es` as the negated mean of the sorted returns strictly below
`index`, with `es = var` when that tail is empty. -/
theorem c4_var_es_definition (rs : List ℚ) (c : ℚ) (hne : rs ≠ [])
    (hc : c = 95 ∨ c = 99) :
    (sortAsc rs).Pairwise (· ≤ ·) ∧ List.Perm (sortAsc rs) rs ∧
    ∃ hidx : (⌊(1 - c / 100) * (rs.length : ℚ)⌋).toNat < (sortAsc rs).length,
      (calculateVaRAndES rs c).var
        = -((sortAsc rs).get ⟨(⌊(1 - c / 100) * (rs.length : ℚ)⌋).toNat, hidx⟩) ∧
      (0 < (⌊(1 - c / 100) * (rs.length : ℚ)⌋).toNat →
        (calculateVaRAndES rs c).es
          = -(((sortAsc rs).take (⌊(1 - c / 100) * (rs.length : ℚ)⌋).toNat).sum /
              (((⌊(1 - c / 100) * (rs.length : ℚ)⌋).toNat : ℕ) : ℚ))) ∧
      ((⌊(1 - c / 100) * (rs.length : ℚ)⌋).toNat = 0 →
        (calculateVaRAndES rs c).es = (calculateVaRAndES rs c).var) := by
  have hlen : (sortAsc rs).length = rs.length := (sortAsc_perm rs).length_eq
  have hn : 0 < rs.length := List.length_pos.mpr hne
  obtain ⟨h0, h1⟩ := varIndex_bounds rs.length hn c hc
  have hfloor : ⌊(1 - c / 100) * ((sortAsc rs).length : ℚ)⌋
      = ⌊(1 - c / 100) * (rs.length : ℚ)⌋ := by rw [hlen]
  have h0s : 0 ≤ ⌊(1 - c / 100) * ((sortAsc rs).length : ℚ)⌋ := by
    rw [hfloor]; exact h0
  have h1s : ⌊(1 - c / 100) * ((sortAsc rs).length : ℚ)⌋ < ((sortAsc rs).length : ℤ) := by
    rw [hfloor, hlen]; exact h1
  have hidx : (⌊(1 - c / 100) * (rs.length : ℚ)⌋).toNat < (sortAsc rs).length := by
    rw [hlen]
    omega
  refine ⟨sortAsc_pairwise rs, sortAsc_perm rs, hidx, ?_, ?_, ?_⟩
  · rw [varES_var_eq rs c hne h0s, hfloor]
    congr 1
    rw [List.getD_eq_getElem?_getD, List.getElem?_eq_getElem hidx, Option.getD_some,
      List.get_eq_getElem]
  · intro hpos
    rw [varES_es_eq rs c hne h0s h1s, hfloor, if_pos hpos]
  · intro hzero
    rw [varES_es_eq rs c hne h0s h1s, varES_var_eq rs c hne h0s, hfloor,
      if_neg (by omega)]

/-- C4 witness: the formula evaluated at returns `[3/10, -1/10, 1/5]` with
confidence 95 (index 0, empty tail, `es = var`). -/
theorem c4_witness :
    (sortAsc [(3 : ℚ)/10, -1/10, 1/5]).Pairwise (· ≤ ·) ∧
    List.Perm (sortAsc [(3 : ℚ)/10, -1/10, 1/5]) [(3 : ℚ)/10, -1/10, 1/5] ∧
    ∃ hidx : (⌊(1 - (95 : ℚ) / 100) * (([(3 : ℚ)/10, -1/10, 1/5].length : ℚ))⌋).toNat
        < (sortAsc [(3 : ℚ)/10, -1/10, 1/5]).length,
      (calculateVaRAndES [(3 : ℚ)/10, -1/10, 1/5] 95).var
        = -((sortAsc [(3 : ℚ)/10, -1/10, 1/5]).get
            ⟨(⌊(1 - (95 : ℚ) / 100) * (([(3 : ℚ)/10, -1/10, 1/5].length : ℚ))⌋).toNat, hidx⟩) ∧
      (0 < (⌊(1 - (95 : ℚ) / 100) * (([(3 : ℚ)/10, -1/10, 1/5].length : ℚ))⌋).toNat →
        (calculateVaRAndES [(3 : ℚ)/10, -1/10, 1/5] 95).es
          = -(((sortAsc [(3 : ℚ)/10, -1/10, 1/5]).take
                (⌊(1 - (95 : ℚ) / 100) * (([(3 : ℚ)/10, -1/10, 1/5].length : ℚ))⌋).toNat).sum /
              (((⌊(1 - (95 : ℚ) / 100) * (([(3 : ℚ)/10, -1/10, 1/5].length : ℚ))⌋).toNat : ℕ) : ℚ))) ∧
      ((⌊(1 - (95 : ℚ) / 100) * (([(3 : ℚ)/10, -1/10, 1/5].length : ℚ))⌋).toNat = 0 →
        (calculateVaRAndES [(3 : ℚ)/10, -1/10, 1/5] 95).es
          = (calculateVaRAndES [(3 : ℚ)/10, -1/10, 1/5] 95).var) :=
  c4_var_es_definition [(3 : ℚ)/10, -1/10, 1/5] 95 (by decide) (Or.inl rfl)

/-- C5: for a non-empty return series, a valid confidence level (95 or
99) and a non-empty tail below the VaR index, the expected shortfall returned
by `calculateVaRAndES` is at least the returned VaR. -/
theorem c5_es_ge_var (rs : List ℚ) (c : ℚ) (hne : rs ≠ [])
    (hc : c = 95 ∨ c = 99)
    (htail : 0 < (⌊(1 - c / 100) * (rs.length : ℚ)⌋).toNat) :
    (calculateVaRAndES rs c).var ≤ (calculateVaRAndES rs c).es := by
  have hlen : (sortAsc rs).length = rs.length := (sortAsc_perm rs).length_eq
  have hn : 0 < rs.length := List.length_pos.mpr hne
  obtain ⟨h0, h1⟩ := varIndex_bounds rs.length hn c hc
  have hfloor : ⌊(1 - c / 100) * ((sortAsc rs).length : ℚ)⌋
      = ⌊(1 - c / 100) * (rs.length : ℚ)⌋ := by rw [hlen]
  have h0s : 0 ≤ ⌊(1 - c / 100) * ((sortAsc rs).length : ℚ)⌋ := by
    rw [hfloor]; exact h0
  have h1s : ⌊(1 - c / 100) * ((sortAsc rs).length : ℚ)⌋ < ((sortAsc rs).length : ℤ) := by
    rw [hfloor, hlen]; exact h1
  have hidx : (⌊(1 - c / 100) * (rs.length : ℚ)⌋).toNat < (sortAsc rs).length := by
    rw [hlen]; omega
  rw [varES_var_eq rs c hne h0s, varES_es_eq rs c hne h0s h1s, hfloor, if_pos htail,
    neg_le_neg_iff]
  have hkle : (⌊(1 - c / 100) * (rs.length : ℚ)⌋).toNat ≤ (sortAsc rs).length :=
    le_of_lt hidx
  have hgetD : (sortAsc rs).getD (⌊(1 - c / 100) * (rs.length : ℚ)⌋).toNat 0
      = (sortAsc rs).get ⟨(⌊(1 - c / 100) * (rs.length : ℚ)⌋).toNat, hidx⟩ := by
    rw [List.getD_eq_getElem?_getD, List.getElem?_eq_getElem hidx, Option.getD_some,
      List.get_eq_getElem]
  rw [hgetD]
  have hb : ∀ x ∈ (sortAsc rs).take (⌊(1 - c / 100) * (rs.length : ℚ)⌋).toNat,
      x ≤ (sortAsc rs).get ⟨(⌊(1 - c / 100) * (rs.length : ℚ)⌋).toNat, hidx⟩ := by
    intro x hx
    obtain ⟨j, hj, hxe⟩ := List.mem_iff_getElem.mp hx
    have hjk : j < (⌊(1 - c / 100) * (rs.length : ℚ)⌋).toNat :=
      lt_of_lt_of_le hj (by rw [List.length_take]; exact min_le_left _ _)
    have hjlen : j < (sortAsc rs).length := lt_trans hjk hidx
    have he : ((sortAsc rs).take (⌊(1 - c / 100) * (rs.length : ℚ)⌋).toNat)[j]?
        = (sortAsc rs)[j]? := List.getElem?_take_of_lt hjk
    rw [List.getElem?_eq_getElem hj, List.getElem?_eq_getElem hjlen] at he
    injection he with he
    have hord := List.pairwise_iff_getElem.mp (sortAsc_pairwise rs) j
      (⌊(1 - c / 100) * (rs.length : ℚ)⌋).toNat hjlen hidx hjk
    rw [← hxe, he, List.get_eq_getElem]
    exact hord
  have hsum := List.sum_le_card_nsmul
    ((sortAsc rs).take (⌊(1 - c / 100) * (rs.length : ℚ)⌋).toNat) _ hb
  rw [List.length_take, min_eq_left hkle, nsmul_eq_mul] at hsum
  have hkpos : (0 : ℚ) < ((⌊(1 - c / 100) * (rs.length : ℚ)⌋).toNat : ℚ) := by
    exact_mod_cast htail
  rw [div_le_iff hkpos]
  calc ((sortAsc rs).take (⌊(1 - c / 100) * (rs.length : ℚ)⌋).toNat).sum
      ≤ ((⌊(1 - c / 100) * (rs.length : ℚ)⌋).toNat : ℚ) *
          (sortAsc rs).get ⟨(⌊(1 - c / 100) * (rs.length : ℚ)⌋).toNat, hidx⟩ := hsum
    _ = (sortAsc rs).get ⟨(⌊(1 - c / 100) * (rs.length : ℚ)⌋).toNat, hidx⟩ *
          ((⌊(1 - c / 100) * (rs.length : ℚ)⌋).toNat : ℚ) := mul_comm _ _

/-- C5 witness: ES ≥ VaR evaluated on twenty identical returns at 95%
confidence (index 1, tail of one element). -/
theorem c5_witness :
    (calculateVaRAndES (List.replicate 20 (1 : ℚ)) 95).var ≤
      (calculateVaRAndES (List.replicate 20 (1 : ℚ)) 95).es :=
  c5_es_ge_var (List.replicate 20 (1 : ℚ)) 95 (by simp) (Or.inl rfl)
    (by norm_num)

/-- C10: `calculateVaRAndES` is total: on the empty series it returns
`var = 0` and `es = 0` without error, and whenever the computed index falls
outside the sorted array (negative or past the end) the out-of-range read is
replaced by 0, so the returned VaR is 0 rather than a failure. -/
theorem c10_totality (c : ℚ) :
    calculateVaRAndES [] c = ⟨0, 0⟩ ∧
    ∀ rs : List ℚ,
      (⌊(1 - c / 100) * (rs.length : ℚ)⌋ < 0 ∨
        (rs.length : ℤ) ≤ ⌊(1 - c / 100) * (rs.length : ℚ)⌋) →
      (calculateVaRAndES rs c).var = 0 := by
  constructor
  · rfl
  · intro rs hout
    by_cases hne : rs = []
    · subst hne
      rfl
    · have hlen : (sortAsc rs).length = rs.length := (sortAsc_perm rs).length_eq
      have hfloor : ⌊(1 - c / 100) * ((sortAsc rs).length : ℚ)⌋
          = ⌊(1 - c / 100) * (rs.length : ℚ)⌋ := by rw [hlen]
      rcases hout with hneg | hbig
      · have hnot : ¬ (0 ≤ ⌊(1 - c / 100) * ((sortAsc rs).length : ℚ)⌋) := by
          rw [hfloor]; omega
        simp only [calculateVaRAndES, if_neg hne, if_neg hnot, neg_zero]
      · have h0s : 0 ≤ ⌊(1 - c / 100) * ((sortAsc rs).length : ℚ)⌋ := by
          rw [hfloor]
          have : (0 : ℤ) ≤ (rs.length : ℤ) := Int.ofNat_nonneg _
          omega
        rw [varES_var_eq rs c hne h0s, hfloor]
        have hge : (sortAsc rs).length ≤ (⌊(1 - c / 100) * (rs.length : ℚ)⌋).toNat := by
          rw [hlen]; omega
        rw [List.getD_eq_getElem?_getD, List.getElem?_eq_none hge, Option.getD_none,
          neg_zero]

/-- C10 witness: the totality statement evaluated at confidence 200 (a
negative index) and the empty list. -/
theorem c10_witness :
    calculateVaRAndES [] 200 = ⟨0, 0⟩ ∧ (calculateVaRAndES [(1 : ℚ)] 200).var = 0 := by
  have h := c10_totality 200
  exact ⟨h.1, h.2 [(1 : ℚ)] (by norm_num)⟩

/-! ## EWMA volatility -/

theorem specEwmaVariance_nonneg (rs : List ℝ) (w : ℕ) :
    ∀ t, 0 ≤ specEwmaVariance rs w t := by
  intro t
  induction t with
  | zero => exact sq_nonneg _
  | succ t ih =>
    simp only [specEwmaVariance]
    have h1 : (0 : ℝ) ≤ 0.94 * specEwmaVariance rs w t :=
      mul_nonneg (by norm_num) ih
    have h2 : (0 : ℝ) ≤ (1 - 0.94) * (rs.getD (w + t - 1) 0) ^ 2 :=
      mul_nonneg (by norm_num) (sq_nonneg _)
    linarith

theorem ewma_fold_invariant (rs : List ℝ) (w : ℕ) :
    ∀ m : ℕ,
      ((List.range' w m).foldl
        (fun acc i =>
          let lastVariance :=
            lambdaEwma * acc.1 + (1 - lambdaEwma) * (rs.getD (i - 1) 0) ^ 2
          (lastVariance, acc.2 ++ [Real.sqrt lastVariance * annualizationFactor]))
        ((stdDev (rs.take w)) ^ 2, ([] : List ℝ)))
      = (specEwmaVariance rs w m,
         (List.range m).map
           (fun t => Real.sqrt (specEwmaVariance rs w (t + 1)) * annualizationFactor)) := by
  intro m
  induction m with
  | zero => simp [specEwmaVariance]
  | succ m ih =>
    rw [List.range'_1_concat, List.foldl_append, ih]
    simp only [List.foldl_cons, List.foldl_nil, List.range_succ, List.map_append,
      List.map_cons, List.map_nil, Prod.mk.injEq]
    have hvar : lambdaEwma * specEwmaVariance rs w m
        + (1 - lambdaEwma) * (rs.getD (w + m - 1) 0) ^ 2
        = specEwmaVariance rs w (m + 1) := by
      simp [specEwmaVariance, lambdaEwma]
    exact ⟨hvar, by rw [hvar]⟩

/-- C6: the GARCH-lite (EWMA) loop seeds its variance with the squared
sample standard deviation of the first `windowSize` returns, applies the
recurrence `variance ← λ·variance + (1-λ)·return_{i-1}²` with λ fixed at 0.94,
and each emitted volatility point equals `√(variance_t · 252)`. -/
theorem c6_ewma_recurrence (rs : List ℝ) (w : ℕ) (hw : 1 ≤ w) :
    (ewmaVolSeries rs w).length = rs.length - w ∧
    specEwmaVariance rs w 0 = (stdDev (rs.take w)) ^ 2 ∧
    lambdaEwma = 0.94 ∧
    ∀ t, t < rs.length - w →
      (ewmaVolSeries rs w).getD t 0
        = Real.sqrt (specEwmaVariance rs w (t + 1) * 252) := by
  have hseries : ewmaVolSeries rs w
      = (List.range (rs.length - w)).map
          (fun t => Real.sqrt (specEwmaVariance rs w (t + 1)) * annualizationFactor) := by
    unfold ewmaVolSeries
    rw [ewma_fold_invariant rs w (rs.length - w)]
  refine ⟨by rw [hseries]; simp, rfl, rfl, ?_⟩
  intro t ht
  rw [hseries, List.getD_eq_getElem?_getD, List.getElem?_map, List.getElem?_range
    (by simpa using ht), Option.map_some', Option.getD_some]
  rw [Real.sqrt_mul (specEwmaVariance_nonneg rs w (t + 1)) 252]
  rfl

/-- C6 witness: the recurrence statement evaluated at returns `[0, 0]`
with window size 1. -/
theorem c6_witness :
    (ewmaVolSeries [(0 : ℝ), 0] 1).length = [(0 : ℝ), 0].length - 1 ∧
    specEwmaVariance [(0 : ℝ), 0] 1 0 = (stdDev ([(0 : ℝ), 0].take 1)) ^ 2 ∧
    lambdaEwma = 0.94 ∧
    ∀ t, t < [(0 : ℝ), 0].length - 1 →
      (ewmaVolSeries [(0 : ℝ), 0] 1).getD t 0
        = Real.sqrt (specEwmaVariance [(0 : ℝ), 0] 1 (t + 1) * 252) :=
  c6_ewma_recurrence [(0 : ℝ), 0] 1 (le_refl 1)

/-! ## Pearson correlation -/

theorem double_sum_expand (n : ℕ) (u v : ℕ → ℝ) :
    ∑ p in Finset.range n ×ˢ Finset.range n, (u p.1 - u p.2) * (v p.1 - v p.2)
      = 2 * ((n : ℝ) * (∑ i in Finset.range n, u i * v i)
          - (∑ i in Finset.range n, u i) * (∑ i in Finset.range n, v i)) := by
  rw [Finset.sum_product]
  have inner : ∀ i ∈ Finset.range n, ∑ j in Finset.range n, (u i - u j) * (v i - v j)
      = (n : ℝ) * (u i * v i) - u i * (∑ j in Finset.range n, v j)
        - (∑ j in Finset.range n, u j) * v i + (∑ j in Finset.range n, u j * v j) := by
    intro i _
    have expand : ∀ j ∈ Finset.range n, (u i - u j) * (v i - v j)
        = (u i * v i - u i * v j) - (u j * v i - u j * v j) := fun j _ => by ring
    rw [Finset.sum_congr rfl expand, Finset.sum_sub_distrib, Finset.sum_sub_distrib,
      Finset.sum_sub_distrib, Finset.sum_const, Finset.card_range, nsmul_eq_mul,
      ← Finset.mul_sum, ← Finset.sum_mul]
    ring
  rw [Finset.sum_congr rfl inner, Finset.sum_add_distrib, Finset.sum_sub_distrib,
    Finset.sum_sub_distrib, Finset.sum_const, Finset.card_range, nsmul_eq_mul]
  simp only [← Finset.mul_sum, ← Finset.sum_mul]
  ring

theorem double_sum_sq (n : ℕ) (u : ℕ → ℝ) :
    ∑ p in Finset.range n ×ˢ Finset.range n, (u p.1 - u p.2) ^ 2
      = 2 * ((n : ℝ) * (∑ i in Finset.range n, u i * u i)
          - (∑ i in Finset.range n, u i) ^ 2) := by
  have h := double_sum_expand n u u
  calc ∑ p in Finset.range n ×ˢ Finset.range n, (u p.1 - u p.2) ^ 2
      = ∑ p in Finset.range n ×ˢ Finset.range n, (u p.1 - u p.2) * (u p.1 - u p.2) :=
        Finset.sum_congr rfl fun p _ => by ring
    _ = 2 * ((n : ℝ) * (∑ i in Finset.range n, u i * u i)
          - (∑ i in Finset.range n, u i) ^ 2) := by rw [h]; ring

theorem corr_cs (n : ℕ) (u v : ℕ → ℝ) :
    ((n : ℝ) * (∑ i in Finset.range n, u i * v i)
      - (∑ i in Finset.range n, u i) * (∑ i in Finset.range n, v i)) ^ 2
    ≤ ((n : ℝ) * (∑ i in Finset.range n, u i * u i) - (∑ i in Finset.range n, u i) ^ 2)
      * ((n : ℝ) * (∑ i in Finset.range n, v i * v i) - (∑ i in Finset.range n, v i) ^ 2) := by
  have hcs := Finset.sum_mul_sq_le_sq_mul_sq (Finset.range n ×ˢ Finset.range n)
    (fun p => u p.1 - u p.2) (fun p => v p.1 - v p.2)
  rw [double_sum_expand n u v, double_sum_sq n u, double_sum_sq n v] at hcs
  nlinarith [hcs]

theorem corrA_nonneg (n : ℕ) (u : ℕ → ℝ) :
    0 ≤ (n : ℝ) * (∑ i in Finset.range n, u i * u i) - (∑ i in Finset.range n, u i) ^ 2 := by
  have h := double_sum_sq n u
  have hpos : 0 ≤ ∑ p in Finset.range n ×ˢ Finset.range n, (u p.1 - u p.2) ^ 2 :=
    Finset.sum_nonneg fun p _ => sq_nonneg _
  linarith

theorem corrA_pos (n : ℕ) (u : ℕ → ℝ) (i j : ℕ) (hi : i < n) (hj : j < n)
    (hne : u i ≠ u j) :
    0 < (n : ℝ) * (∑ k in Finset.range n, u k * u k) - (∑ k in Finset.range n, u k) ^ 2 := by
  have hpos : 0 < ∑ p in Finset.range n ×ˢ Finset.range n, (u p.1 - u p.2) ^ 2 := by
    refine Finset.sum_pos' (fun p _ => sq_nonneg _) ⟨(i, j), ?_, ?_⟩
    · exact Finset.mem_product.mpr ⟨Finset.mem_range.mpr hi, Finset.mem_range.mpr hj⟩
    · exact pow_two_pos_of_ne_zero (sub_ne_zero.mpr hne)
  have h := double_sum_sq n u
  linarith

/-- C7: for equal-length non-empty inputs the Pearson correlation lies in
`[-1, 1]`; on a non-degenerate series `correlation x x = 1`; and a vanishing
denominator yields 0 instead of a failure. -/
theorem c7_correlation_properties (x y : List ℝ) (hne : x ≠ [])
    (hlen : y.length = x.length) :
    (-1 ≤ correlation x y ∧ correlation x y ≤ 1) ∧
    ((∃ a ∈ x, ∃ b ∈ x, a ≠ b) → correlation x x = 1) ∧
    (corrDen x y = 0 → correlation x y = 0) := by
  have hn0 : x.length ≠ 0 := fun h => hne (List.length_eq_zero.mp h)
  have hcond : ¬(x.length = 0 ∨ y.length ≠ x.length) := by
    push_neg
    exact ⟨hn0, hlen⟩
  refine ⟨?_, ?_, ?_⟩
  · unfold correlation
    rw [if_neg hcond]
    by_cases hden : corrDen x y = 0
    · rw [if_pos hden]
      norm_num
    · rw [if_neg hden]
      have hdennn : 0 ≤ corrDen x y := by
        unfold corrDen
        exact Real.sqrt_nonneg _
      have hdenpos : 0 < corrDen x y := lt_of_le_of_ne hdennn (Ne.symm hden)
      have habs : |corrNum x y| ≤ corrDen x y := by
        have hsq := corr_cs x.length (fun i => x.getD i 0) (fun i => y.getD i 0)
        have h1 : corrNum x y ^ 2
            ≤ ((x.length : ℝ) * (∑ i in Finset.range x.length, x.getD i 0 * x.getD i 0)
                - (∑ i in Finset.range x.length, x.getD i 0) ^ 2)
              * ((x.length : ℝ) * (∑ i in Finset.range x.length, y.getD i 0 * y.getD i 0)
                - (∑ i in Finset.range x.length, y.getD i 0) ^ 2) := by
          simp only [corrNum]
          exact hsq
        have h2 : |corrNum x y| = Real.sqrt (corrNum x y ^ 2) :=
          (Real.sqrt_sq_eq_abs _).symm
        rw [h2]
        unfold corrDen
        exact Real.sqrt_le_sqrt h1
      constructor
      · rw [le_div_iff hdenpos]
        have hnegabs := neg_abs_le (corrNum x y)
        linarith
      · rw [div_le_one hdenpos]
        exact le_trans (le_abs_self _) habs
  · rintro ⟨a, ha, b, hb, hab⟩
    have hcondx : ¬(x.length = 0 ∨ x.length ≠ x.length) := by
      push_neg
      exact ⟨hn0, rfl⟩
    obtain ⟨i, hi, hia⟩ := List.mem_iff_getElem.mp ha
    obtain ⟨j, hj, hjb⟩ := List.mem_iff_getElem.mp hb
    have hune : x.getD i 0 ≠ x.getD j 0 := by
      rw [List.getD_eq_getElem?_getD, List.getElem?_eq_getElem hi, Option.getD_some,
        List.getD_eq_getElem?_getD, List.getElem?_eq_getElem hj, Option.getD_some,
        hia, hjb]
      exact hab
    have hA := corrA_pos x.length (fun k => x.getD k 0) i j hi hj hune
    have hnum : corrNum x x
        = (x.length : ℝ) * (∑ k in Finset.range x.length, x.getD k 0 * x.getD k 0)
          - (∑ k in Finset.range x.length, x.getD k 0) ^ 2 := by
      simp only [corrNum]
      ring
    have hdeneq : corrDen x x
        = (x.length : ℝ) * (∑ k in Finset.range x.length, x.getD k 0 * x.getD k 0)
          - (∑ k in Finset.range x.length, x.getD k 0) ^ 2 := by
      unfold corrDen
      exact Real.sqrt_mul_self (le_of_lt hA)
    unfold correlation
    rw [if_neg hcondx, if_neg (by rw [hdeneq]; exact ne_of_gt hA), hnum, hdeneq]
    exact div_self (ne_of_gt hA)
  · intro hden
    simp [correlation, hden]

/-- C7 witness: the correlation properties evaluated at `x = [1, 2]`,
`y = [2, 1]`. -/
theorem c7_witness :
    (-1 ≤ correlation [(1 : ℝ), 2] [(2 : ℝ), 1] ∧ correlation [(1 : ℝ), 2] [(2 : ℝ), 1] ≤ 1) ∧
    ((∃ a ∈ [(1 : ℝ), 2], ∃ b ∈ [(1 : ℝ), 2], a ≠ b) →
      correlation [(1 : ℝ), 2] [(1 : ℝ), 2] = 1) ∧
    (corrDen [(1 : ℝ), 2] [(2 : ℝ), 1] = 0 → correlation [(1 : ℝ), 2] [(2 : ℝ), 1] = 0) :=
  c7_correlation_properties [(1 : ℝ), 2] [(2 : ℝ), 1] (by simp) (by simp)

/-! ## The risk-engine return scenario -/

theorem returns_scenario :
    calculateReturns [(100 : ℝ), 102, 101, 105, 103]
      = [1/50, -1/102, 4/101, -2/105] := by
  norm_num [calculateReturns]

theorem stdDev_scenario_lower :
    (0.0269 : ℝ) ≤ stdDev [(1 : ℝ)/50, -1/102, 4/101, -2/105] := by
  unfold stdDev
  rw [if_neg (by norm_num)]
  rw [Real.le_sqrt (by norm_num) ?hy]
  case hy =>
    simp only [List.map_cons, List.map_nil, List.sum_cons, List.sum_nil, List.length_cons,
      List.length_nil]
    norm_num
  simp only [List.map_cons, List.map_nil, List.sum_cons, List.sum_nil, List.length_cons,
    List.length_nil]
  norm_num

theorem stdDev_scenario_upper :
    stdDev [(1 : ℝ)/50, -1/102, 4/101, -2/105] ≤ 0.0271 := by
  unfold stdDev
  rw [if_neg (by norm_num)]
  rw [Real.sqrt_le_left (by norm_num)]
  simp only [List.map_cons, List.map_nil, List.sum_cons, List.sum_nil, List.length_cons,
    List.length_nil]
  norm_num

/-- C8 counterexample: for the price series `[100, 102, 101, 105, 103]`
the Bessel-corrected sample standard deviation of the simple returns is about
0.0270, not the claimed 0.0244 — it misses 0.0244 by more than 0.001 (the
actual value exceeds 0.0269). -/
theorem c8_counterexample :
    ¬ (|stdDev (calculateReturns [(100 : ℝ), 102, 101, 105, 103]) - 0.0244| ≤ 0.001) := by
  rw [returns_scenario]
  intro habs
  rw [abs_le] at habs
  have hlow := stdDev_scenario_lower
  linarith [habs.2]

/-- C8 (amended): the simple returns of `[100, 102, 101, 105, 103]` are
`[0.02, -0.0098, 0.0396, -0.019]` to the stated precision (exactly
`[1/50, -1/102, 4/101, -2/105]`), and the sample standard deviation of those
four returns is ≈ 0.0270 (within 0.0001), not 0.0244. -/
theorem c8_scenario :
    calculateReturns [(100 : ℝ), 102, 101, 105, 103] = [1/50, -1/102, 4/101, -2/105] ∧
    |(1 : ℝ)/50 - 0.02| ≤ 0.00005 ∧
    |(-1 : ℝ)/102 - -0.0098| ≤ 0.00005 ∧
    |(4 : ℝ)/101 - 0.0396| ≤ 0.00005 ∧
    |(-2 : ℝ)/105 - -0.019| ≤ 0.00005 ∧
    |stdDev (calculateReturns [(100 : ℝ), 102, 101, 105, 103]) - 0.027| ≤ 0.0001 := by
  refine ⟨returns_scenario, ?_, ?_, ?_, ?_, ?_⟩
  · rw [abs_le]; constructor <;> norm_num
  · rw [abs_le]; constructor <;> norm_num
  · rw [abs_le]; constructor <;> norm_num
  · rw [abs_le]; constructor <;> norm_num
  · rw [returns_scenario, abs_le]
    have h1 := stdDev_scenario_lower
    have h2 := stdDev_scenario_upper
    constructor <;> [linarith; linarith]
